import Mathlib

/-!
Verification of the acp-kv distributed key-value store core.

Shallow embedding of the Go source (internal/hlc, internal/storage,
internal/staleness, internal/reconcile, internal/replication,
internal/adaptive, internal/config, internal/server) into Lean.
64-bit nanosecond timestamps and counters are modelled as `Int`;
float64 health scores are modelled as `ℚ`; wall-clock readings and
"now" instants are explicit parameters; fallible operations return
`Except` or a success flag.
-/

namespace ACPKV

/-- HLC timestamp (internal/hlc): physical nanoseconds, logical counter,
originating node id. -/
structure HLC where
  physical : Int
  logical : Int
  nodeID : String
deriving Repr, DecidableEq

/-- Source `HLC.HappensBefore`: a happens-before b iff a.physical < b.physical, or
equal physical and a.logical < b.logical. -/
def HLC.happensBefore (h other : HLC) : Bool :=
  if h.physical < other.physical then
    true
  else if h.physical = other.physical ∧ h.logical < other.logical then
    true
  else
    false

/-- Source `HLC.HappensAfter`: defined in the source as `other.HappensBefore(h)`. -/
def HLC.happensAfter (h other : HLC) : Bool :=
  other.happensBefore h

/-- Source `HLC.Equal`: identical physical and logical components (nodeID ignored). -/
def HLC.equal (h other : HLC) : Bool :=
  decide (h.physical = other.physical) && decide (h.logical = other.logical)

/-- Source `HLC.Age`: `now - physical` when `now > physical`, else zero. -/
def HLC.age (h : HLC) (now : Int) : Int :=
  if now > h.physical then now - h.physical else 0

/-- State of the hybrid logical clock (internal/hlc `Clock`): last physical
time observed, logical counter, node id, and the drift bound in nanoseconds. -/
structure ClockState where
  physical : Int
  logical : Int
  nodeID : String
  maxDrift : Int
deriving Repr, DecidableEq

/-- The (physical, logical, nodeID) triple currently held by the clock;
`Clock.Now` returns exactly this triple for the post-call state. -/
def ClockState.stamp (c : ClockState) : HLC :=
  ⟨c.physical, c.logical, c.nodeID⟩

/-- Source `Clock.Now`: reads the wall clock (`physicalNow`), advances physical and
resets logical if the wall clock moved past `physical`, otherwise increments
logical; returns the new state and the issued timestamp. -/
def ClockState.now (c : ClockState) (physicalNow : Int) : ClockState × HLC :=
  let c' :=
    if physicalNow > c.physical then
      { c with physical := physicalNow, logical := 0 }
    else
      { c with logical := c.logical + 1 }
  (c', c'.stamp)

/-- Source `Clock.Update`: merge a remote timestamp. Fails (mutating nothing) when
`remote.physical - physicalNow` exceeds `maxDrift`; otherwise applies the
merge rule and the final wall-clock catch-up step. -/
def ClockState.update (c : ClockState) (remote : HLC) (physicalNow : Int) :
    Except Unit ClockState :=
  let drift := remote.physical - physicalNow
  if drift > c.maxDrift then
    .error ()
  else
    let c1 :=
      if remote.physical > c.physical then
        { c with physical := remote.physical, logical := remote.logical + 1 }
      else if remote.physical = c.physical then
        if remote.logical > c.logical then
          { c with logical := remote.logical + 1 }
        else
          { c with logical := c.logical + 1 }
      else
        { c with logical := c.logical + 1 }
    let c2 :=
      if physicalNow > c1.physical then
        { c1 with physical := physicalNow, logical := 0 }
      else
        c1
    .ok c2

/-- Modelled from the spec (section 4.1, step 4 of `update(remote)`): the merge
rule written with `max` as the specification states it (`equal physical ⇒
logical ← max(logical, remote.logical) + 1`), followed by the wall-clock
catch-up step.  Compared against `ClockState.update` (the source translation)
for the refinement claim. -/
def clockMergeSpec (c : ClockState) (remote : HLC) (physicalNow : Int) :
    ClockState :=
  let c1 :=
    if remote.physical > c.physical then
      { c with physical := remote.physical, logical := remote.logical + 1 }
    else if remote.physical = c.physical then
      { c with logical := max c.logical remote.logical + 1 }
    else
      { c with logical := c.logical + 1 }
  if physicalNow > c1.physical then
    { c1 with physical := physicalNow, logical := 0 }
  else
    c1

/-- Timestamps issued by a sequence of `Clock.Now` calls, one per wall-clock
reading in `reads`, threading the clock state. -/
def clockNowSeq (c : ClockState) : List Int → List HLC
  | [] => []
  | pn :: rest =>
      let step := c.now pn
      step.2 :: clockNowSeq step.1 rest

/-! Arithmetic characterisations of the HLC comparison operators. -/

theorem happensBefore_iff (a b : HLC) :
    a.happensBefore b = true ↔
      (a.physical < b.physical ∨
        (a.physical = b.physical ∧ a.logical < b.logical)) := by
  unfold HLC.happensBefore
  split_ifs with h1 h2 <;> simp_all

theorem equal_iff (a b : HLC) :
    a.equal b = true ↔ a.physical = b.physical ∧ a.logical = b.logical := by
  unfold HLC.equal
  simp

theorem happensAfter_iff (a b : HLC) :
    a.happensAfter b = true ↔
      (b.physical < a.physical ∨
        (b.physical = a.physical ∧ b.logical < a.logical)) := by
  unfold HLC.happensAfter
  exact happensBefore_iff b a

instance : IsTrans HLC (fun a b : HLC => a.happensBefore b = true) where
  trans a b c hab hbc := by
    rw [happensBefore_iff] at *
    rcases hab with h | ⟨h, h'⟩ <;> rcases hbc with g | ⟨g, g'⟩ <;>
      [left; left; left; right] <;> omega

/-- A single `Clock.Now` call issues a timestamp strictly after the
(physical, logical) pair the clock held before the call. -/
theorem stamp_happensBefore_now (c : ClockState) (pn : Int) :
    c.stamp.happensBefore (c.now pn).2 = true := by
  unfold ClockState.now ClockState.stamp
  rw [happensBefore_iff]
  split_ifs with h
  · left; simpa using h
  · right; simp

/-- The timestamps issued by `Clock.Now` form a chain above the clock's
current (physical, logical) pair. -/
theorem stamp_chain_clockNowSeq (reads : List Int) (c : ClockState) :
    List.Chain (fun a b : HLC => a.happensBefore b = true) c.stamp
      (clockNowSeq c reads) := by
  induction reads generalizing c with
  | nil => exact List.Chain.nil
  | cons pn rest ih =>
      have hseq : clockNowSeq c (pn :: rest)
          = (c.now pn).2 :: clockNowSeq (c.now pn).1 rest := rfl
      rw [hseq]
      refine List.Chain.cons (stamp_happensBefore_now c pn) ?_
      have h : (c.now pn).2 = ((c.now pn).1).stamp := rfl
      rw [h]
      exact ih (c.now pn).1

/-- C6: for every sequence of `Clock.Now` calls on a single clock, with
arbitrary (even non-increasing) wall-clock readings, the returned HLC
timestamps are strictly increasing in the (physical, logical) order: every
earlier returned timestamp happens-before every later one. -/
theorem clock_now_monotone (c : ClockState) (reads : List Int) :
    List.Pairwise (fun a b : HLC => a.happensBefore b = true)
      (clockNowSeq c reads) :=
  ((List.chain_iff_pairwise).mp (stamp_chain_clockNowSeq reads c)).of_cons

/-- C5: `Clock.Update(remote)` fails (and in the stateful code mutates
nothing) exactly when `remote.physical` exceeds the wall-clock reading by
more than `maxDrift`; otherwise it succeeds and transforms the state exactly
by the specification's merge rule (`clockMergeSpec`, with the equal-physical
case written `logical := max(logical, remote.logical) + 1` and the final
wall-clock catch-up step). -/
theorem clock_update_spec (c : ClockState) (remote : HLC) (pn : Int) :
    (remote.physical - pn > c.maxDrift →
      c.update remote pn = .error ()) ∧
    (remote.physical - pn ≤ c.maxDrift →
      c.update remote pn = .ok (clockMergeSpec c remote pn)) := by
  constructor
  · intro h
    unfold ClockState.update
    rw [if_pos h]
  · intro h
    unfold ClockState.update clockMergeSpec
    rw [if_neg (by omega)]
    by_cases h1 : remote.physical > c.physical
    · simp only [if_pos h1]
    · by_cases h2 : remote.physical = c.physical
      · by_cases h3 : remote.logical > c.logical
        · simp only [if_neg h1, if_pos h2, if_pos h3,
            max_eq_right (le_of_lt h3)]
        · simp only [if_neg h1, if_pos h2, if_neg h3,
            max_eq_left (by omega : remote.logical ≤ c.logical)]
      · simp only [if_neg h1, if_neg h2]

/-- Witness for C5: concrete drift failure and a concrete successful merge,
obtained by applying `clock_update_spec`. -/
theorem clock_update_spec_witness :
    (ClockState.update ⟨10, 5, "a", 100⟩ ⟨300, 7, "b"⟩ 11 = .error ()) ∧
    (ClockState.update ⟨10, 5, "a", 100⟩ ⟨12, 7, "b"⟩ 11 =
      .ok (clockMergeSpec ⟨10, 5, "a", 100⟩ ⟨12, 7, "b"⟩ 11)) :=
  ⟨(clock_update_spec ⟨10, 5, "a", 100⟩ ⟨300, 7, "b"⟩ 11).1 (by decide),
   (clock_update_spec ⟨10, 5, "a", 100⟩ ⟨12, 7, "b"⟩ 11).2 (by decide)⟩

/-- Versioned value stored per key (internal/storage): byte payload, version
(the HLC physical component), deprecated timestamp, originating node,
the HLC stamp, local receipt time, and the local-origin flag. -/
structure VersionedValue where
  value : List Nat
  version : Int
  timestamp : Int
  nodeID : String
  hlc : HLC
  receivedAt : Int
  isLocal : Bool
deriving Repr, DecidableEq

/-- The in-memory key-value map of `storage.Store`. -/
def Store : Type := String → Option VersionedValue

/-- Source `Store.Get`: map lookup. -/
def Store.get (s : Store) (key : String) : Option VersionedValue := s key

/-- Source `Store.PutWithHLC`: unconditionally replaces the entry for `key` with a
versioned value derived from the HLC stamp; returns the new map and the
stored value. -/
def Store.putWithHLC (s : Store) (key : String) (value : List Nat)
    (nodeID : String) (timestamp : HLC) (now : Int) : Store × VersionedValue :=
  let vv : VersionedValue :=
    { value := value
      version := timestamp.physical
      timestamp := timestamp.physical
      nodeID := nodeID
      hlc := timestamp
      receivedAt := now
      isLocal := decide (nodeID = timestamp.nodeID) }
  (fun k => if k = key then some vv else s k, vv)

/-- Staleness detector (internal/staleness): carries the maximum age in
nanoseconds. -/
structure Detector where
  maxAge : Int
deriving Repr, DecidableEq

/-- Source `Detector.IsStale`: the value's HLC age at `now` exceeds `maxAge`. -/
def Detector.isStale (d : Detector) (timestamp : HLC) (now : Int) : Bool :=
  decide (timestamp.age now > d.maxAge)

/-- Source `Detector.CheckStrict`: fails exactly when the value's HLC age at the
moment of the check exceeds `maxAge`. -/
def Detector.checkStrict (d : Detector) (value : VersionedValue) (now : Int) :
    Except Unit Unit :=
  if value.hlc.age now > d.maxAge then .error () else .ok ()

/-- C7: with a non-negative staleness bound, `IsStale t now` holds iff
`now - t.physical > maxAge` (the age being clamped at zero makes a future
timestamp never stale), and `CheckStrict` fails exactly on the values so
classified at the `now` of the check. -/
theorem staleness_spec (d : Detector) (t : HLC) (v : VersionedValue)
    (now : Int) (h : 0 ≤ d.maxAge) :
    (d.isStale t now = true ↔ now - t.physical > d.maxAge) ∧
    (t.physical ≥ now → d.isStale t now = false) ∧
    (d.checkStrict v now = .error () ↔ d.isStale v.hlc now = true) := by
  refine ⟨?_, ?_, ?_⟩
  · unfold Detector.isStale HLC.age
    split_ifs with hn <;> simp <;> omega
  · intro hfut
    unfold Detector.isStale HLC.age
    rw [if_neg (by omega)]
    simpa using by omega
  · unfold Detector.checkStrict Detector.isStale
    split_ifs with hs <;> simp [hs]

/-- Witness for C7: a value written 4.9 microseconds before a check with a
3-microsecond bound is stale, by `staleness_spec`. -/
theorem staleness_spec_witness :
    (0 : Int) ≤ 3000 ∧
    ((Detector.isStale ⟨3000⟩ ⟨100, 0, "n"⟩ 5000 = true ↔
        (5000 : Int) - 100 > 3000) ∧
      ((100 : Int) ≥ 5000 →
        Detector.isStale ⟨3000⟩ ⟨100, 0, "n"⟩ 5000 = false) ∧
      (Detector.checkStrict ⟨3000⟩ ⟨[], 100, 100, "n", ⟨100, 0, "n"⟩, 0, true⟩
          5000 = .error () ↔
        Detector.isStale ⟨3000⟩ ⟨100, 0, "n"⟩ 5000 = true)) :=
  ⟨by decide,
   staleness_spec ⟨3000⟩ ⟨100, 0, "n"⟩ ⟨[], 100, 100, "n", ⟨100, 0, "n"⟩, 0, true⟩
     5000 (by decide)⟩

theorem happensBefore_false_iff (a b : HLC) :
    a.happensBefore b = false ↔
      ¬(a.physical < b.physical ∨
        (a.physical = b.physical ∧ a.logical < b.logical)) := by
  rw [← Bool.not_eq_true, not_iff_not]
  exact happensBefore_iff a b

theorem happensBefore_irrefl (a : HLC) : a.happensBefore a = false := by
  rw [happensBefore_false_iff]; omega

theorem happensBefore_asymm (a b : HLC) (h : a.happensBefore b = true) :
    b.happensBefore a = false := by
  rw [happensBefore_iff] at h
  rw [happensBefore_false_iff]
  omega

theorem equal_happensBefore_false (a b : HLC) (h : a.equal b = true) :
    a.happensBefore b = false := by
  rw [equal_iff] at h
  rw [happensBefore_false_iff]
  omega

theorem notBefore_trans (a b c : HLC) (hba : b.happensBefore a = false)
    (hcb : c.happensBefore b = false) : c.happensBefore a = false := by
  rw [happensBefore_false_iff] at *
  omega

/-- Entry of the bounded recent-write log (internal/reconcile `WriteEntry`):
key, payload, originating node, HLC stamp, local receipt time. -/
structure WriteEntry where
  key : String
  value : List Nat
  nodeID : String
  hlc : HLC
  timestamp : Int
deriving Repr, DecidableEq

/-- Loop body of `Engine.reconcileWithPeer` for one write-log entry: skip if
the key is absent locally; apply the entry if its HLC happens-after the local
one; keep the local value if it happens-after the entry; on exact HLC
equality, tiebreak by lexicographically larger originating node id. -/
def reconcileStep (store : Store) (write : WriteEntry) (now : Int) : Store :=
  match store.get write.key with
  | none => store
  | some localValue =>
      if write.hlc.happensAfter localValue.hlc then
        (store.putWithHLC write.key write.value write.nodeID write.hlc now).1
      else if localValue.hlc.happensAfter write.hlc then
        store
      else if write.hlc.equal localValue.hlc then
        if localValue.nodeID < write.nodeID then
          (store.putWithHLC write.key write.value write.nodeID write.hlc now).1
        else
          store
      else
        store

/-- One reconciliation run of `Engine.reconcileWithPeer`: the loop over the
snapshot of recent writes, threading the store. -/
def reconcileRun (store : Store) (writes : List WriteEntry) (now : Int) :
    Store :=
  writes.foldl (fun s w => reconcileStep s w now) store

theorem putWithHLC_get_ne (s : Store) (key : String) (value : List Nat)
    (nodeID : String) (ts : HLC) (now : Int) (k : String) (h : k ≠ key) :
    (s.putWithHLC key value nodeID ts now).1.get k = s.get k := by
  simp [Store.putWithHLC, Store.get, h]

theorem putWithHLC_get_eq (s : Store) (key : String) (value : List Nat)
    (nodeID : String) (ts : HLC) (now : Int) :
    (s.putWithHLC key value nodeID ts now).1.get key =
      some (s.putWithHLC key value nodeID ts now).2 := by
  simp [Store.putWithHLC, Store.get]

/-- One reconciliation step never lowers the HLC stored at any key, and
leaves absent keys absent. -/
theorem reconcileStep_mono (store : Store) (e : WriteEntry) (now : Int)
    (k : String) :
    (store.get k = none → (reconcileStep store e now).get k = none) ∧
    (∀ v, store.get k = some v →
      ∃ v', (reconcileStep store e now).get k = some v' ∧
        v'.hlc.happensBefore v.hlc = false) := by
  unfold reconcileStep
  cases hk : store.get e.key with
  | none =>
      exact ⟨fun h => h, fun v hv => ⟨v, hv, happensBefore_irrefl v.hlc⟩⟩
  | some lv =>
      by_cases hkey : k = e.key
      · subst hkey
        constructor
        · intro h; rw [h] at hk; exact absurd hk (by simp)
        · intro v hv
          rw [hv] at hk
          injection hk with hk
          subst hk
          dsimp only
          split_ifs with h1 h2 h3 h4
          · refine ⟨_, putWithHLC_get_eq store e.key e.value e.nodeID e.hlc now, ?_⟩
            exact happensBefore_asymm _ _ h1
          · exact ⟨v, hv, happensBefore_irrefl v.hlc⟩
          · refine ⟨_, putWithHLC_get_eq store e.key e.value e.nodeID e.hlc now, ?_⟩
            exact equal_happensBefore_false _ _ h3
          · exact ⟨v, hv, happensBefore_irrefl v.hlc⟩
          · exact ⟨v, hv, happensBefore_irrefl v.hlc⟩
      · constructor
        · intro h
          dsimp only
          split_ifs <;>
            simp only [putWithHLC_get_ne store e.key e.value e.nodeID e.hlc now k hkey, h]
        · intro v hv
          refine ⟨v, ?_, happensBefore_irrefl v.hlc⟩
          dsimp only
          split_ifs <;>
            simp only [putWithHLC_get_ne store e.key e.value e.nodeID e.hlc now k hkey, hv]

/-- A full reconciliation run never lowers the HLC stored at any key, and
leaves absent keys absent. -/
theorem reconcileRun_mono (writes : List WriteEntry) (store : Store)
    (now : Int) (k : String) :
    ((store.get k = none → (reconcileRun store writes now).get k = none) ∧
     (∀ v, store.get k = some v →
       ∃ v', (reconcileRun store writes now).get k = some v' ∧
         v'.hlc.happensBefore v.hlc = false)) := by
  induction writes generalizing store with
  | nil =>
      exact ⟨fun h => h, fun v hv => ⟨v, hv, happensBefore_irrefl v.hlc⟩⟩
  | cons e rest ih =>
      have hrun : reconcileRun store (e :: rest) now
          = reconcileRun (reconcileStep store e now) rest now := rfl
      rw [hrun]
      constructor
      · intro h
        exact (ih (reconcileStep store e now)).1
          ((reconcileStep_mono store e now k).1 h)
      · intro v hv
        obtain ⟨v₁, hv₁, hb₁⟩ := (reconcileStep_mono store e now k).2 v hv
        obtain ⟨v₂, hv₂, hb₂⟩ :=
          (ih (reconcileStep store e now)).2 v₁ hv₁
        exact ⟨v₂, hv₂, notBefore_trans v.hlc v₁.hlc v₂.hlc hb₁ hb₂⟩

/-- C4: a reconciliation run skips write-log entries whose key is absent
locally, never replaces a local value with an entry whose HLC happens-before
the local HLC (so the HLC stored at every key never decreases over the run),
and on exact HLC equality applies the entry iff its originating node id is
lexicographically greater than the local one. -/
theorem reconcile_spec (store : Store) (writes : List WriteEntry)
    (e : WriteEntry) (now : Int) :
    (store.get e.key = none → reconcileStep store e now = store) ∧
    (∀ v, store.get e.key = some v → e.hlc.happensBefore v.hlc = true →
      reconcileStep store e now = store) ∧
    (∀ v, store.get e.key = some v → e.hlc.equal v.hlc = true →
      reconcileStep store e now =
        (if v.nodeID < e.nodeID then
          (store.putWithHLC e.key e.value e.nodeID e.hlc now).1
        else store)) ∧
    (∀ k, store.get k = none → (reconcileRun store writes now).get k = none) ∧
    (∀ k v, store.get k = some v →
      ∃ v', (reconcileRun store writes now).get k = some v' ∧
        v'.hlc.happensBefore v.hlc = false) := by
  refine ⟨?_, ?_, ?_,
    fun k => (reconcileRun_mono writes store now k).1,
    fun k => (reconcileRun_mono writes store now k).2⟩
  · intro h
    unfold reconcileStep
    rw [h]
  · intro v hv hb
    unfold reconcileStep
    rw [hv]
    have h1 : e.hlc.happensAfter v.hlc = false := by
      unfold HLC.happensAfter
      exact happensBefore_asymm _ _ hb
    have h2 : v.hlc.happensAfter e.hlc = true := hb
    simp only [h1, h2, Bool.false_eq_true, if_false, if_true]
  · intro v hv he
    unfold reconcileStep
    rw [hv]
    have heq := (equal_iff e.hlc v.hlc).mp he
    have h1 : e.hlc.happensAfter v.hlc = false := by
      unfold HLC.happensAfter
      rw [happensBefore_false_iff]
      omega
    have h2 : v.hlc.happensAfter e.hlc = false := by
      unfold HLC.happensAfter
      rw [happensBefore_false_iff]
      omega
    simp only [h1, h2, he, Bool.false_eq_true, if_false, if_true]

/-- Witness for C4: an entry with an HLC exactly equal to the local value's
and a lexicographically greater node id is applied, and the run never lowers
the stored HLC; both by `reconcile_spec`. -/
theorem reconcile_spec_witness :
    (reconcileStep
        (fun k => if k = "k" then
          some ⟨[1], 100, 100, "a", ⟨100, 0, "a"⟩, 0, true⟩ else none)
        ⟨"k", [2], "b", ⟨100, 0, "b"⟩, 3⟩ 7 =
      (if "a" < "b" then
        (Store.putWithHLC
          (fun k => if k = "k" then
            some ⟨[1], 100, 100, "a", ⟨100, 0, "a"⟩, 0, true⟩ else none)
          "k" [2] "b" ⟨100, 0, "b"⟩ 7).1
      else
        (fun k => if k = "k" then
          some ⟨[1], 100, 100, "a", ⟨100, 0, "a"⟩, 0, true⟩ else none))) ∧
    (∃ v', (reconcileRun
        (fun k => if k = "k" then
          some ⟨[1], 100, 100, "a", ⟨100, 0, "a"⟩, 0, true⟩ else none)
        [⟨"k", [2], "b", ⟨100, 0, "b"⟩, 3⟩] 7).get "k" = some v' ∧
      v'.hlc.happensBefore (HLC.mk 100 0 "a") = false) :=
  ⟨(reconcile_spec
      (fun k => if k = "k" then
        some ⟨[1], 100, 100, "a", ⟨100, 0, "a"⟩, 0, true⟩ else none)
      [⟨"k", [2], "b", ⟨100, 0, "b"⟩, 3⟩]
      ⟨"k", [2], "b", ⟨100, 0, "b"⟩, 3⟩ 7).2.2.1
      ⟨[1], 100, 100, "a", ⟨100, 0, "a"⟩, 0, true⟩ (by decide) (by decide),
   (reconcile_spec
      (fun k => if k = "k" then
        some ⟨[1], 100, 100, "a", ⟨100, 0, "a"⟩, 0, true⟩ else none)
      [⟨"k", [2], "b", ⟨100, 0, "b"⟩, 3⟩]
      ⟨"k", [2], "b", ⟨100, 0, "b"⟩, 3⟩ 7).2.2.2.2 "k"
      ⟨[1], 100, 100, "a", ⟨100, 0, "a"⟩, 0, true⟩ (by decide)⟩

theorem happensAfter_false_iff (a b : HLC) :
    a.happensAfter b = false ↔
      ¬(b.physical < a.physical ∨
        (b.physical = a.physical ∧ b.logical < a.logical)) := by
  rw [← Bool.not_eq_true, not_iff_not]
  exact happensAfter_iff a b

theorem happensBefore_trans (a b c : HLC) (hab : a.happensBefore b = true)
    (hbc : b.happensBefore c = true) : a.happensBefore c = true := by
  rw [happensBefore_iff] at *
  omega

/-- Value returned from a replica during a quorum read
(internal/replication `ReplicaValue`). -/
structure ReplicaValue where
  peerAddr : String
  value : List Nat
  version : Int
  timestamp : Int
  hlc : HLC
  isStale : Bool
  found : Bool
deriving Repr, DecidableEq

/-- Source `Coordinator.Replicate`, abstracted over the per-peer RPC outcomes: one
boolean per connected peer in the snapshot, true exactly when that peer's
Replicate RPC returned without error and reported success.  Returns the ack
count (self counts as one) and whether the call succeeded (false is the
insufficient-acknowledgements error). -/
def replicate (peerSuccess : List Bool) (requiredAcks : Int) : Int × Bool :=
  if peerSuccess.isEmpty then
    (1, true)
  else
    let successCount : Int := 1 + (peerSuccess.filter id).length
    if successCount < requiredAcks then
      (successCount, false)
    else
      (successCount, true)

/-- What one connected peer's `GetLocal` RPC produced during
`Coordinator.QueryReplicas`: a transport error, a response with the key not
found, or a found response carrying a replica value. -/
inductive PeerReply where
  | rpcError
  | notFound
  | found (v : ReplicaValue)
deriving Repr, DecidableEq

/-- The replica value a peer reply contributes to the result channel: only
found responses contribute. -/
def foundValue : PeerReply → Option ReplicaValue
  | .found v => some v
  | _ => none

/-- Error kinds surfaced by the quorum read path. -/
inductive GetError where
  | insufficientReplicas
  | insufficientResponses
  | stalenessExceeded
deriving Repr, DecidableEq

/-- Source `Coordinator.QueryReplicas`, abstracted over the per-peer replies (one
per connected peer in the snapshot).  With no connected peers it fails iff
more than one response is required; otherwise it gathers the found replies
and fails iff their number plus one (self) is below `requiredResponses`. -/
def queryReplicas (peerReplies : List PeerReply) (requiredResponses : Int) :
    Except GetError (List ReplicaValue) :=
  if peerReplies.isEmpty then
    if requiredResponses > 1 then .error .insufficientReplicas else .ok []
  else
    let allResults := peerReplies.filterMap foundValue
    if (allResults.length : Int) + 1 < requiredResponses then
      .error .insufficientResponses
    else
      .ok allResults

/-- Loop body of `GetMostRecent`: replace the candidate when the scanned
value's HLC happens-after the candidate's. -/
def mostRecentStep (m x : ReplicaValue) : ReplicaValue :=
  if x.hlc.happensAfter m.hlc then x else m

/-- Source `GetMostRecent`: linear scan for the value with the maximal HLC;
"none" iff the input is empty. -/
def getMostRecent : List ReplicaValue → Option ReplicaValue
  | [] => none
  | v :: vs => some (vs.foldl mostRecentStep v)

/-- Response of the client-facing Get handler (fields of
`proto.GetResponse` used by `Server.Get`). -/
structure GetResponse where
  found : Bool
  value : List Nat
  version : Int
  timestamp : Int
  isStale : Bool
  err : Option GetError
deriving Repr, DecidableEq

/-- Source `Server.Get`, abstracted over the local lookup result, the current read
quorum, the per-peer replies, and the wall-clock instant of the staleness
check.  R = 1 answers locally; otherwise the quorum read runs, the local
value (when present) is appended, the most recent value is picked and
staleness-checked. -/
def serverGet (localValue : Option VersionedValue) (requiredR : Int)
    (peerReplies : List PeerReply) (d : Detector) (now : Int)
    (selfID : String) : GetResponse :=
  if requiredR = 1 then
    match localValue with
    | none => ⟨false, [], 0, 0, false, none⟩
    | some lv =>
        match d.checkStrict lv now with
        | .error _ => ⟨true, [], 0, 0, true, some .stalenessExceeded⟩
        | .ok _ => ⟨true, lv.value, lv.version, lv.timestamp, false, none⟩
  else
    match queryReplicas peerReplies requiredR with
    | .error e => ⟨false, [], 0, 0, false, some e⟩
    | .ok replicaValues =>
        let allValues :=
          match localValue with
          | some lv =>
              replicaValues ++
                [⟨"local", lv.value, lv.version, lv.timestamp, lv.hlc,
                  false, true⟩]
          | none => replicaValues
        match getMostRecent allValues with
        | none => ⟨false, [], 0, 0, false, none⟩
        | some mostRecent =>
            let mrVV : VersionedValue :=
              ⟨mostRecent.value, mostRecent.version, 0, selfID,
                mostRecent.hlc, 0, false⟩
            match d.checkStrict mrVV now with
            | .error _ => ⟨true, [], 0, 0, true, some .stalenessExceeded⟩
            | .ok _ =>
                ⟨true, mostRecent.value, mostRecent.version,
                  mostRecent.timestamp, false, none⟩

/-- The linear scan of `GetMostRecent` yields a maximum under happens-after,
positioned after a prefix of strictly happens-before values. -/
theorem mostRecentStep_foldl_spec (vs : List ReplicaValue)
    (acc : ReplicaValue) :
    (∀ x ∈ acc :: vs,
      x.hlc.happensAfter (vs.foldl mostRecentStep acc).hlc = false) ∧
    (∃ l₁ l₂, acc :: vs = l₁ ++ (vs.foldl mostRecentStep acc) :: l₂ ∧
      ∀ x ∈ l₁,
        x.hlc.happensBefore (vs.foldl mostRecentStep acc).hlc = true) := by
  induction vs generalizing acc with
  | nil =>
      refine ⟨?_, [], [], rfl, by simp⟩
      intro x hx
      simp only [List.mem_singleton] at hx
      subst hx
      simp only [List.foldl_nil]
      exact happensBefore_irrefl x.hlc
  | cons v vs ih =>
      have hfold : ((v :: vs).foldl mostRecentStep acc)
          = vs.foldl mostRecentStep (mostRecentStep acc v) := rfl
      rw [hfold]
      by_cases h : v.hlc.happensAfter acc.hlc = true
      · have hstep : mostRecentStep acc v = v := by
          unfold mostRecentStep; rw [if_pos h]
        rw [hstep]
        obtain ⟨ihmax, l₁, l₂, hdec, hpre⟩ := ih v
        have hav : acc.hlc.happensBefore v.hlc = true := h
        have hrv : (vs.foldl mostRecentStep v).hlc.happensBefore v.hlc
            = false := ihmax v (by simp)
        constructor
        · intro x hx
          simp only [List.mem_cons] at hx
          rcases hx with hx | hx
          · subst hx
            show (vs.foldl mostRecentStep v).hlc.happensBefore x.hlc = false
            rw [happensBefore_false_iff] at hrv ⊢
            rw [happensBefore_iff] at hav
            omega
          · exact ihmax x (by simpa using hx)
        · rcases l₁ with _ | ⟨w, t⟩
          · simp only [List.nil_append] at hdec
            injection hdec with h1 h2
            refine ⟨[acc], l₂, ?_, ?_⟩
            · rw [← h1, ← h2]; rfl
            · intro x hx
              simp only [List.mem_singleton] at hx
              subst hx
              rw [← h1]; exact hav
          · simp only [List.cons_append] at hdec
            injection hdec with h1 h2
            refine ⟨acc :: v :: t, l₂, ?_, ?_⟩
            · rw [List.cons_append, List.cons_append, ← h2]
            · intro x hx
              simp only [List.mem_cons] at hx
              rcases hx with hx | hx | hx
              · subst hx
                have hvr : v.hlc.happensBefore
                    (vs.foldl mostRecentStep v).hlc = true := by
                  have := hpre w (by simp)
                  rwa [← h1] at this
                exact happensBefore_trans _ _ _ hav hvr
              · subst hx
                have := hpre w (by simp)
                rwa [← h1] at this
              · exact hpre x (by simp [hx])
      · have hstep : mostRecentStep acc v = acc := by
          unfold mostRecentStep
          rw [if_neg (by simpa using h)]
        rw [hstep]
        obtain ⟨ihmax, l₁, l₂, hdec, hpre⟩ := ih acc
        have hnav : acc.hlc.happensBefore v.hlc = false := by
          simpa using h
        have hra : (vs.foldl mostRecentStep acc).hlc.happensBefore acc.hlc
            = false := ihmax acc (by simp)
        constructor
        · intro x hx
          simp only [List.mem_cons] at hx
          rcases hx with hx | hx | hx
          · subst hx; exact ihmax x (by simp)
          · subst hx
            show (vs.foldl mostRecentStep acc).hlc.happensBefore x.hlc = false
            rw [happensBefore_false_iff] at hnav hra ⊢
            omega
          · exact ihmax x (by simp [hx])
        · rcases l₁ with _ | ⟨w, t⟩
          · simp only [List.nil_append] at hdec
            injection hdec with h1 h2
            refine ⟨[], v :: vs, ?_, by simp⟩
            rw [← h1]; rfl
          · simp only [List.cons_append] at hdec
            injection hdec with h1 h2
            have hwr : acc.hlc.happensBefore
                (vs.foldl mostRecentStep acc).hlc = true := by
              have := hpre w (by simp)
              rwa [← h1] at this
            refine ⟨acc :: v :: t, l₂, ?_, ?_⟩
            · rw [List.cons_append, List.cons_append, ← h2]
            · intro x hx
              simp only [List.mem_cons] at hx
              rcases hx with hx | hx | hx
              · subst hx; exact hwr
              · subst hx
                rw [happensBefore_iff] at hwr ⊢
                rw [happensBefore_false_iff] at hnav
                omega
              · exact hpre x (by simp [hx])

/-- C8: `GetMostRecent` returns "none" iff the input is empty; otherwise it
returns a maximum under the HLC happens-after order (no element of the list
happens-after the returned one), and every element positioned before the
returned one happens-before it strictly — in particular no earlier element
has an (physical, logical)-equal HLC, which is stable first-wins on exact
equality. -/
theorem getMostRecent_spec (values : List ReplicaValue) :
    (getMostRecent values = none ↔ values = []) ∧
    (∀ r, getMostRecent values = some r →
      (∀ x ∈ values, x.hlc.happensAfter r.hlc = false) ∧
      ∃ l₁ l₂, values = l₁ ++ r :: l₂ ∧
        (∀ x ∈ l₁, x.hlc.happensBefore r.hlc = true) ∧
        (∀ x ∈ l₁, x.hlc.equal r.hlc = false)) := by
  cases values with
  | nil => exact ⟨by simp [getMostRecent], by simp [getMostRecent]⟩
  | cons v vs =>
      refine ⟨by simp [getMostRecent], ?_⟩
      intro r hr
      simp only [getMostRecent, Option.some.injEq] at hr
      subst hr
      obtain ⟨hmax, l₁, l₂, hdec, hpre⟩ := mostRecentStep_foldl_spec vs v
      refine ⟨hmax, l₁, l₂, hdec, hpre, ?_⟩
      intro x hx
      have hb := hpre x hx
      rw [happensBefore_iff] at hb
      rw [← Bool.not_eq_true, equal_iff]
      omega

/-- Witness for C8: on a concrete three-value list the scan returns the
first value holding the maximal HLC, by `getMostRecent_spec`. -/
theorem getMostRecent_spec_witness :
    (∀ x ∈ [ReplicaValue.mk "p1" [1] 5 5 ⟨5, 0, "a"⟩ false true,
            ReplicaValue.mk "p2" [2] 9 9 ⟨9, 0, "b"⟩ false true,
            ReplicaValue.mk "p3" [3] 9 9 ⟨9, 0, "c"⟩ false true],
      x.hlc.happensAfter (HLC.mk 9 0 "b") = false) ∧
    ∃ l₁ l₂,
      [ReplicaValue.mk "p1" [1] 5 5 ⟨5, 0, "a"⟩ false true,
       ReplicaValue.mk "p2" [2] 9 9 ⟨9, 0, "b"⟩ false true,
       ReplicaValue.mk "p3" [3] 9 9 ⟨9, 0, "c"⟩ false true] =
        l₁ ++ (ReplicaValue.mk "p2" [2] 9 9 ⟨9, 0, "b"⟩ false true) :: l₂ ∧
      (∀ x ∈ l₁, x.hlc.happensBefore (HLC.mk 9 0 "b") = true) ∧
      (∀ x ∈ l₁, x.hlc.equal (HLC.mk 9 0 "b") = false) :=
  (getMostRecent_spec
      [ReplicaValue.mk "p1" [1] 5 5 ⟨5, 0, "a"⟩ false true,
       ReplicaValue.mk "p2" [2] 9 9 ⟨9, 0, "b"⟩ false true,
       ReplicaValue.mk "p3" [3] 9 9 ⟨9, 0, "c"⟩ false true]).2
    (ReplicaValue.mk "p2" [2] 9 9 ⟨9, 0, "b"⟩ false true) (by decide)

/-- C1 (evidence of the divergence): `Coordinator.Replicate` with an empty
connected-peer snapshot returns ackCount 1 and success even when
`requiredAcks` is 2, instead of the insufficient-acknowledgements failure
that `Server.Put` (and the repository's own TestQuorumEnforcement test)
expects with zero peers and W > 1. -/
theorem replicate_empty_peers_succeeds :
    replicate [] 2 = (1, true) ∧ (1 : Int) < 2 := by
  constructor
  · rfl
  · decide

/-- C10: in `QueryReplicas` a peer reply that is an error or a not-found
response contributes nothing, while self always contributes exactly one
response; hence for a Get with read quorum R > 1, whenever fewer than R − 1
peers report the key as found — even if every peer responded, and whatever
the local store holds — the Get fails with an insufficient-replicas error. -/
theorem serverGet_insufficient_replicas (localValue : Option VersionedValue)
    (requiredR : Int) (peerReplies : List PeerReply) (d : Detector)
    (now : Int) (selfID : String) :
    (peerReplies ≠ [] →
      queryReplicas peerReplies requiredR =
        (if ((peerReplies.filterMap foundValue).length : Int) + 1 < requiredR
          then .error .insufficientResponses
          else .ok (peerReplies.filterMap foundValue))) ∧
    (1 < requiredR →
      ((peerReplies.filterMap foundValue).length : Int) < requiredR - 1 →
      ∃ e, (e = GetError.insufficientReplicas ∨
            e = GetError.insufficientResponses) ∧
        serverGet localValue requiredR peerReplies d now selfID =
          ⟨false, [], 0, 0, false, some e⟩) := by
  constructor
  · intro hne
    unfold queryReplicas
    rw [if_neg (by simpa using hne)]
  · intro hR hcount
    unfold serverGet
    rw [if_neg (by omega)]
    cases hpr : peerReplies with
    | nil =>
        have hq : queryReplicas [] requiredR = .error .insufficientReplicas := by
          unfold queryReplicas
          rw [if_pos (by simp), if_pos (by omega)]
        rw [hq]
        exact ⟨.insufficientReplicas, Or.inl rfl, rfl⟩
    | cons p ps =>
        have hq : queryReplicas (p :: ps) requiredR
            = .error .insufficientResponses := by
          unfold queryReplicas
          rw [if_neg (by simp)]
          rw [hpr] at hcount
          rw [if_pos (by omega)]
        rw [hq]
        exact ⟨.insufficientResponses, Or.inr rfl, rfl⟩

/-- Witness for C10: with one connected peer answering not-found, R = 2, and
the key present locally, the Get fails with an insufficient-replicas error,
by `serverGet_insufficient_replicas`. -/
theorem serverGet_insufficient_replicas_witness :
    ∃ e, (e = GetError.insufficientReplicas ∨
          e = GetError.insufficientResponses) ∧
      serverGet (some ⟨[1], 100, 100, "n", ⟨100, 0, "n"⟩, 0, true⟩) 2
          [PeerReply.notFound] ⟨3000⟩ 200 "n" =
        ⟨false, [], 0, 0, false, some e⟩ :=
  (serverGet_insufficient_replicas
      (some ⟨[1], 100, 100, "n", ⟨100, 0, "n"⟩, 0, true⟩) 2
      [PeerReply.notFound] ⟨3000⟩ 200 "n").2 (by decide) (by decide)

/-- State of the adaptive quorum manager (internal/adaptive
`AdaptiveQuorum`): current quorums, cluster size, adjustment bounds, and the
hysteresis state. -/
structure AQState where
  currentR : Int
  currentW : Int
  n : Int
  minR : Int
  maxR : Int
  minW : Int
  maxW : Int
  lastAdjustTime : Int
  lockoutDuration : Int
deriving Repr, DecidableEq

/-- Source `AdaptiveQuorum.SetQuorum` at wall-clock instant `now`: rejected during
the hysteresis lockout, on intersection violation, or on a bounds violation,
leaving the state unchanged; otherwise commits the new quorums and records
the adjustment time.  The boolean is the success flag. -/
def AQState.setQuorum (aq : AQState) (now newR newW : Int) : AQState × Bool :=
  if now - aq.lastAdjustTime < aq.lockoutDuration then
    (aq, false)
  else if newR + newW ≤ aq.n then
    (aq, false)
  else if newR < aq.minR ∨ newR > aq.maxR then
    (aq, false)
  else if newW < aq.minW ∨ newW > aq.maxW then
    (aq, false)
  else
    ({ aq with currentR := newR, currentW := newW, lastAdjustTime := now },
      true)

/-- The adaptive-quorum invariant: current quorums within bounds and
intersecting (R + W > N). -/
def AQInv (aq : AQState) : Prop :=
  aq.minR ≤ aq.currentR ∧ aq.currentR ≤ aq.maxR ∧
  aq.minW ≤ aq.currentW ∧ aq.currentW ≤ aq.maxW ∧
  aq.n < aq.currentR + aq.currentW

instance (aq : AQState) : Decidable (AQInv aq) := by
  unfold AQInv
  infer_instance

/-- C3: a successful `SetQuorum` call implies intersection, bounds, and an
elapsed hysteresis lockout, and commits exactly the proposed values with the
adjustment time; a failed call leaves the state unchanged; hence every call
preserves the adaptive-quorum invariant. -/
theorem setQuorum_spec (aq : AQState) (now newR newW : Int) :
    ((aq.setQuorum now newR newW).2 = true →
      aq.n < newR + newW ∧
      aq.minR ≤ newR ∧ newR ≤ aq.maxR ∧
      aq.minW ≤ newW ∧ newW ≤ aq.maxW ∧
      aq.lockoutDuration ≤ now - aq.lastAdjustTime ∧
      (aq.setQuorum now newR newW).1 =
        { aq with
          currentR := newR
          currentW := newW
          lastAdjustTime := now }) ∧
    ((aq.setQuorum now newR newW).2 = false →
      (aq.setQuorum now newR newW).1 = aq) ∧
    (AQInv aq → AQInv (aq.setQuorum now newR newW).1) := by
  unfold AQState.setQuorum
  split_ifs with h1 h2 h3 h4
  · exact ⟨fun h => by simp at h, fun _ => rfl, fun h => h⟩
  · exact ⟨fun h => by simp at h, fun _ => rfl, fun h => h⟩
  · exact ⟨fun h => by simp at h, fun _ => rfl, fun h => h⟩
  · exact ⟨fun h => by simp at h, fun _ => rfl, fun h => h⟩
  · refine ⟨fun _ => ⟨by omega, by omega, by omega, by omega, by omega,
      by omega, rfl⟩, fun h => by simp at h, fun _ => ?_⟩
    unfold AQInv
    dsimp only
    omega

/-- Witness for C3: a concrete allowed transition (N = 3, bounds [1,3],
lockout elapsed) commits and preserves the invariant, by `setQuorum_spec`. -/
theorem setQuorum_spec_witness :
    ((AQState.setQuorum ⟨2, 2, 3, 1, 3, 1, 3, 0, 5⟩ 5 1 3).1 =
      { AQState.mk 2 2 3 1 3 1 3 0 5 with
        currentR := 1
        currentW := 3
        lastAdjustTime := 5 }) ∧
    AQInv (AQState.setQuorum ⟨2, 2, 3, 1, 3, 1, 3, 0, 5⟩ 5 1 3).1 :=
  ⟨((setQuorum_spec ⟨2, 2, 3, 1, 3, 1, 3, 0, 5⟩ 5 1 3).1
      (by decide)).2.2.2.2.2.2,
   (setQuorum_spec ⟨2, 2, 3, 1, 3, 1, 3, 0, 5⟩ 5 1 3).2.2 (by decide)⟩

/-- Node configuration fields checked at startup (internal/config `Config`):
node id, cluster size N, initial quorums R and W, and the adaptive-quorum
bounds. -/
structure Config where
  nodeID : String
  n : Int
  r : Int
  w : Int
  minR : Int
  maxR : Int
  minW : Int
  maxW : Int
deriving Repr, DecidableEq

/-- Source `Config.Validate`: the startup validation run before the server accepts
requests; `none` means the configuration is accepted. -/
def Config.validate (c : Config) : Option String :=
  if c.nodeID = "" then
    some "NODE_ID cannot be empty"
  else if c.n < 3 then
    some "cluster must have atleast 3 nodes"
  else if c.r < 1 ∨ c.r > c.n then
    some "R out of range"
  else if c.w < 1 ∨ c.w > c.n then
    some "W out of range"
  else if c.r + c.w ≤ c.n then
    some "quorum intersection violated"
  else
    none

/-- Counterexample to C2: a configuration with initialR = 2 below
minR = 3 passes startup validation — the adaptive bounds are not checked. -/
theorem config_validate_accepts_r_below_minR :
    Config.validate ⟨"node1", 3, 2, 2, 3, 3, 1, 3⟩ = none ∧
    (Config.mk "node1" 3 2 2 3 3 1 3).r <
      (Config.mk "node1" 3 2 2 3 3 1 3).minR := by
  constructor
  · rfl
  · decide

/-- C2 (amended): startup validation fails iff the node id is empty, N < 3,
R ∉ [1, N], W ∉ [1, N], or R + W ≤ N; the adaptive bounds
minR ≤ initialR ≤ maxR and minW ≤ initialW ≤ maxW are not checked. -/
theorem config_validate_iff (c : Config) :
    Config.validate c = none ↔
      (c.nodeID ≠ "" ∧ 3 ≤ c.n ∧ 1 ≤ c.r ∧ c.r ≤ c.n ∧ 1 ≤ c.w ∧
        c.w ≤ c.n ∧ c.n < c.r + c.w) := by
  unfold Config.validate
  split_ifs with h1 h2 h3 h4 h5 <;> simp_all <;> omega

/-- Sliding-window circular buffer of metric samples (internal/adaptive
`MetricsWindow`); float64 samples are modelled as rationals. -/
structure MetricsWindow where
  samples : List ℚ
  size : Nat
  index : Nat
  count : Nat
deriving Repr, DecidableEq

/-- Source `NewMetricsWindow`: zeroed buffer of the given capacity. -/
def MetricsWindow.new (size : Nat) : MetricsWindow :=
  ⟨List.replicate size 0, size, 0, 0⟩

/-- Source `MetricsWindow.Add`: overwrite the slot at `index`, advance it modulo
the capacity, and grow `count` up to the capacity. -/
def MetricsWindow.add (mw : MetricsWindow) (v : ℚ) : MetricsWindow :=
  { mw with
    samples := mw.samples.set mw.index v
    index := (mw.index + 1) % mw.size
    count := if mw.count < mw.size then mw.count + 1 else mw.count }

/-- Source `MetricsWindow.GetAverage`: mean of the first `count` slots, zero when
the window is empty. -/
def MetricsWindow.getAverage (mw : MetricsWindow) : ℚ :=
  if mw.count = 0 then 0
  else (mw.samples.take mw.count).sum / mw.count

/-- Breakdown of the CCS calculation (internal/adaptive `CCSComponents`). -/
structure CCSComponents where
  rttHealth : ℚ
  availHealth : ℚ
  varHealth : ℚ
  errorHealth : ℚ
  clockHealth : ℚ
deriving Repr, DecidableEq

/-- The CCS computation engine (internal/adaptive `CCSComputer`): five metric
windows, the smoothing history, the five weights, and the three badness
thresholds. -/
structure CCSComputer where
  rttWindow : MetricsWindow
  successWindow : MetricsWindow
  varianceWindow : MetricsWindow
  errorWindow : MetricsWindow
  clockWindow : MetricsWindow
  ccsHistory : MetricsWindow
  alphaRTT : ℚ
  betaAvail : ℚ
  gammaVar : ℚ
  deltaError : ℚ
  epsilonClock : ℚ
  rttBadThreshold : ℚ
  varBadThreshold : ℚ
  clockBadThreshold : ℚ
deriving Repr, DecidableEq

/-- Source `NewCCSComputer`: windows of capacity 10, weights
0.20/0.40/0.15/0.15/0.10, thresholds 0.2 s, 0.0025 s², 0.1 s. -/
def newCCSComputer : CCSComputer :=
  { rttWindow := .new 10
    successWindow := .new 10
    varianceWindow := .new 10
    errorWindow := .new 10
    clockWindow := .new 10
    ccsHistory := .new 10
    alphaRTT := 20/100
    betaAvail := 40/100
    gammaVar := 15/100
    deltaError := 15/100
    epsilonClock := 10/100
    rttBadThreshold := 2/10
    varBadThreshold := 25/10000
    clockBadThreshold := 1/10 }

/-- Source `CCSComputer.ComputeCCS`: read the per-window averages, form the five
health components, and return their weighted sum with the breakdown. -/
def CCSComputer.computeCCS (cc : CCSComputer) : ℚ × CCSComponents :=
  let avgRTT := cc.rttWindow.getAverage
  let successRate := cc.successWindow.getAverage
  let variance := cc.varianceWindow.getAverage
  let errorRate := cc.errorWindow.getAverage
  let clockDrift := cc.clockWindow.getAverage
  let rttHealth := 1 - min (avgRTT / cc.rttBadThreshold) 1
  let availHealth := successRate
  let varHealth := 1 - min (variance / cc.varBadThreshold) 1
  let errorHealth := 1 - errorRate
  let clockHealth := 1 - min (clockDrift / cc.clockBadThreshold) 1
  (cc.alphaRTT * rttHealth + cc.betaAvail * availHealth +
      cc.gammaVar * varHealth + cc.deltaError * errorHealth +
      cc.epsilonClock * clockHealth,
    ⟨rttHealth, availHealth, varHealth, errorHealth, clockHealth⟩)

/-- C9: on a computer built by `NewCCSComputer` (whatever its windows hold),
`ComputeCCS` returns exactly
0.20·RTTHealth + 0.40·AvailHealth + 0.15·VarHealth + 0.15·ErrorHealth +
0.10·ClockHealth, where the components are formed from the five window means
as RTTHealth = 1 − min(avgRtt/0.200, 1), AvailHealth = successRate,
VarHealth = 1 − min(variance/0.0025, 1), ErrorHealth = 1 − errorRate,
ClockHealth = 1 − min(clockDrift/0.100, 1). -/
theorem computeCCS_formula (w1 w2 w3 w4 w5 w6 : MetricsWindow) :
    (CCSComputer.computeCCS
      { newCCSComputer with
        rttWindow := w1
        successWindow := w2
        varianceWindow := w3
        errorWindow := w4
        clockWindow := w5
        ccsHistory := w6 }).1 =
      20/100 * (1 - min (w1.getAverage / (200/1000)) 1) +
      40/100 * w2.getAverage +
      15/100 * (1 - min (w3.getAverage / (25/10000)) 1) +
      15/100 * (1 - w4.getAverage) +
      10/100 * (1 - min (w5.getAverage / (100/1000)) 1) := by
  simp only [CCSComputer.computeCCS, newCCSComputer]
  norm_num

end ACPKV
